import Mathlib

/-!
Verification of the susa dense-matrix container (`inc/susa/matrix.h`) and the
signal-processing routines built on it (`inc/susa/signal.h`).

The element type is fixed to `Int`, modelling an exact integer instantiation
(`susa::matrix<int>` on an LP64 platform); all claims under study are about
index arithmetic and exact element values, not about floating point.

A `susa::matrix<T>` stores its elements in a single buffer in column-major
order: the linear index of entry (row, col) is `row + col * rows`
(`matrix<T>::get_lindex`).  We model the buffer as a `List Int` plus the two
shape fields.  `SUSA_ASSERT` is a no-op in release builds and the claims are
about the values the functions return, so assertions are modelled as doing
nothing; where the code then reads or writes past a buffer we note it in a
comment (reads give the `getD` default, writes via `List.set` are dropped).
-/

namespace susa

/-- The `susa::matrix<T>` container: row count, column count and the
column-major element buffer (`sizet_rows`, `sizet_cols`, `_matrix`).
`data.length` models `sizet_objects`, the allocated element count. -/
structure matrix where
  rows : Nat
  cols : Nat
  data : List Int
  deriving DecidableEq, Repr

/-- The default-constructed matrix: `sizet_rows = sizet_cols = 0`, no buffer. -/
def emptyMat : matrix := ⟨0, 0, []⟩

/-- `matrix::size()` returns `sizet_objects`, the element count of the buffer. -/
def matrix.size (m : matrix) : Nat := m.data.length

/-- A read through `operator()(row, col)`: the element at linear index
`row + col * rows` (`get_lindex`). -/
def matrix.entry (m : matrix) (r c : Nat) : Int := m.data.getD (r + c * m.rows) 0

/-- The column-major slice holding column `c`: the buffer segment
`[c * rows, (c+1) * rows)`. -/
def matrix.column (m : matrix) (c : Nat) : List Int := (m.data.drop (c * m.rows)).take m.rows

/-- Well-formedness: the buffer holds exactly `rows * cols` elements, as every
constructor of the C++ class guarantees. -/
abbrev matrix.Wf (m : matrix) : Prop := m.data.length = m.rows * m.cols

/-- The dimension normalization every shape-taking constructor and `resize`
apply: `sizet_rows < 2 ? 1 : sizet_rows`. -/
def normDim (n : Nat) : Nat := if n < 2 then 1 else n

/-- Modelled from the spec: `susa::memory<T>::allocate` lives in
`inc/susa/memory.h`, which is not among the given sources.  The spec's
ElementBuffer contract together with its description of freshly constructed
storage ("an all-default-initialized vector", "the column's
default-initialized value (typically zero-equivalent)", "a zero-filled
result") says a fresh allocation is default-initialized, i.e. all zero for a
numeric element type. -/
def allocZero (n : Nat) : List Int := List.replicate n 0

/-- The `matrix(rows, cols, Tinitial)` constructor: normalizes each dimension
(`< 2` becomes `1`) and fills the buffer with the initial value. -/
def mkMat (r c : Nat) (v : Int) : matrix :=
  ⟨normDim r, normDim c, List.replicate (normDim r * normDim c) v⟩

/-- The `matrix(rows, cols)` constructor without an initial value: same
normalization, buffer contents from `allocate` (spec-modelled as zero). -/
def mkMatU (r c : Nat) : matrix := ⟨normDim r, normDim c, allocZero (normDim r * normDim c)⟩

/-- A column-major buffer laid out from an entry function: column `c` occupies
positions `[c * R, (c+1) * R)` and holds `f 0 c, …, f (R-1) c`.  This is the
shape of a buffer after a column-outer/row-inner write loop that touches
every position. -/
def colGrid (R C : Nat) (f : Nat → Nat → Int) : List Int :=
  ((List.range C).map (fun c => (List.range R).map (fun r => f r c))).flatten

lemma normDim_of_pos {n : Nat} (h : 1 ≤ n) : normDim n = n := by
  unfold normDim; split <;> omega

lemma normDim_zero : normDim 0 = 1 := rfl

lemma colGrid_length (R C : Nat) (f : Nat → Nat → Int) : (colGrid R C f).length = C * R := by
  induction C with
  | zero => simp [colGrid]
  | succ n ih =>
      unfold colGrid at ih ⊢
      rw [List.range_succ, List.map_append, List.flatten_append]
      simp only [List.length_append, ih]
      simp [Nat.succ_mul]

lemma colGrid_getD {R C r c : Nat} (f : Nat → Nat → Int) (hr : r < R) (hc : c < C) :
    (colGrid R C f).getD (r + c * R) 0 = f r c := by
  induction C with
  | zero => omega
  | succ n ih =>
      unfold colGrid at ih ⊢
      rw [List.range_succ, List.map_append, List.flatten_append]
      simp only [List.map_cons, List.map_nil, List.flatten_cons, List.flatten_nil,
        List.append_nil]
      have hlen : ((List.range n).map (fun c => (List.range R).map (fun r => f r c))).flatten.length = n * R :=
        colGrid_length R n f
      rcases Nat.lt_or_ge c n with hcn | hcn
      · have h2 : r + c * R < n * R := by
          have h3 : (c + 1) * R ≤ n * R := Nat.mul_le_mul_right _ (by omega)
          have h4 : (c + 1) * R = c * R + R := by ring
          omega
        rw [List.getD_eq_getElem _ _ (by rw [List.length_append, hlen]; omega)]
        rw [List.getElem_append_left (by rw [hlen]; omega)]
        rw [← List.getD_eq_getElem _ _ (by rw [hlen]; omega)]
        exact ih hcn
      · have hceq : c = n := by omega
        subst hceq
        rw [List.getD_eq_getElem _ _
          (by rw [List.length_append, hlen, List.length_map, List.length_range]; omega)]
        rw [List.getElem_append_right (by rw [hlen]; omega)]
        simp only [hlen, Nat.add_sub_cancel]
        rw [List.getElem_map, List.getElem_range]

lemma colGrid_congr {R C : Nat} {f g : Nat → Nat → Int}
    (h : ∀ r < R, ∀ c < C, f r c = g r c) : colGrid R C f = colGrid R C g := by
  unfold colGrid
  congr 1
  refine List.map_congr_left (fun c hc => ?_)
  refine List.map_congr_left (fun r hr => ?_)
  exact h r (List.mem_range.mp hr) c (List.mem_range.mp hc)

/-- Two lists of equal length agreeing at every `getD` position are equal. -/
lemma list_eq_of_getD {l₁ l₂ : List Int} (hlen : l₁.length = l₂.length)
    (h : ∀ i < l₁.length, l₁.getD i 0 = l₂.getD i 0) : l₁ = l₂ := by
  refine List.ext_getElem hlen (fun n h₁ h₂ => ?_)
  have := h n h₁
  rwa [List.getD_eq_getElem _ _ h₁, List.getD_eq_getElem _ _ h₂] at this

/-- Reassembling a well-formed column-major buffer from its entries. -/
lemma colGrid_entry (m : matrix) (hwf : m.Wf) :
    colGrid m.rows m.cols (fun r c => m.entry r c) = m.data := by
  rcases Nat.eq_zero_or_pos m.rows with hR | hR
  · have : m.data.length = 0 := by rw [hwf, hR]; simp
    have hd : m.data = [] := List.eq_nil_of_length_eq_zero this
    apply list_eq_of_getD
    · rw [colGrid_length, hd, hR]; simp
    · intro i hi
      rw [colGrid_length, hR] at hi
      omega
  · apply list_eq_of_getD
    · rw [colGrid_length, hwf, Nat.mul_comm]
    · intro i hi
      rw [colGrid_length] at hi
      have hdecomp : i = i % m.rows + (i / m.rows) * m.rows := by
        rw [Nat.mod_add_div']
      have hrlt : i % m.rows < m.rows := Nat.mod_lt _ hR
      have hclt : i / m.rows < m.cols := by
        apply Nat.div_lt_of_lt_mul
        rw [Nat.mul_comm m.cols m.rows] at hi
        exact hi
      rw [hdecomp, colGrid_getD _ hrlt hclt]
      unfold matrix.entry
      rw [← hdecomp]

lemma column_fits {m : matrix} {c : Nat} (hwf : m.Wf) (hc : c < m.cols) :
    c * m.rows + m.rows ≤ m.data.length := by
  rw [hwf, Nat.mul_comm m.rows m.cols]
  have h2 : (c + 1) * m.rows ≤ m.cols * m.rows := Nat.mul_le_mul_right _ (by omega)
  have h3 : (c + 1) * m.rows = c * m.rows + m.rows := by ring
  omega

lemma column_length {m : matrix} {c : Nat} (hwf : m.Wf) (hc : c < m.cols) :
    (m.column c).length = m.rows := by
  have hfit := column_fits hwf hc
  unfold matrix.column
  rw [List.length_take, List.length_drop]
  refine inf_eq_left.mpr ?_
  omega

lemma column_getD {m : matrix} {c j : Nat} (hwf : m.Wf) (hc : c < m.cols) (hj : j < m.rows) :
    (m.column c).getD j 0 = m.entry j c := by
  have hlen := column_length hwf hc
  have hfit := column_fits hwf hc
  unfold matrix.column at hlen ⊢
  unfold matrix.entry
  rw [List.getD_eq_getElem _ _ (by omega), List.getElem_take, List.getElem_drop]
  rw [List.getD_eq_getElem _ _ (by omega)]
  congr 1
  omega

/-! ## Element-wise arithmetic (`matrix.h`, operators `+`, `-`, `*`, `/`)

Each binary operator allocates a result from the LEFT operand's shape
(through the normalizing constructor, without an initial value — the buffer
starts out as `allocate` leaves it, spec-modelled zero), checks the two
shapes for equality, and only runs the element loop when they match;
otherwise it returns the untouched fresh buffer. -/

/-- Common shape/loop skeleton of `operator+`, `operator-`, `operator*`,
`operator/` on two matrices (matrix.h lines 924-943, 976-995, 1026-1045,
1076-1095). -/
def ewise (f : Int → Int → Int) (A B : matrix) : matrix :=
  let r := normDim A.rows
  let c := normDim A.cols
  ⟨r, c,
    if A.rows = B.rows ∧ A.cols = B.cols then
      (List.range (r * c)).map (fun i =>
        if i < A.rows * A.cols then f (A.data.getD i 0) (B.data.getD i 0) else 0)
    else allocZero (r * c)⟩

def matAdd (A B : matrix) : matrix := ewise (· + ·) A B

def matSub (A B : matrix) : matrix := ewise (· - ·) A B

def matMulE (A B : matrix) : matrix := ewise (· * ·) A B

/-- Element-wise division; `Int` division truncates toward zero like C++. -/
def matDivE (A B : matrix) : matrix := ewise (· / ·) A B

/-- `operator*(T, matrix)` (and the mirrored `operator*(matrix, T)`):
broadcast multiplication of a scalar over every element.  The result is
allocated from the operand's shape tuple (normalizing, no initial value) and
the loop runs over the operand's `sizet_objects`. -/
def scalarMulL (t : Int) (m : matrix) : matrix :=
  let r := normDim m.rows
  let c := normDim m.cols
  ⟨r, c, (List.range (r * c)).map (fun i =>
    if i < m.data.length then t * m.data.getD i 0 else 0)⟩

/-! ## Equality operators (`matrix.h` lines 333-351)

Both friend operators loop over the LEFT operand's `sizet_objects` and
compare buffer elements at the same linear index; shapes are not consulted. -/

/-- `operator!=`: true as soon as one linear position differs, scanning the
left operand's element count. -/
def matNeOp (A B : matrix) : Bool :=
  (List.range A.data.length).any (fun i => A.data.getD i 0 != B.data.getD i 0)

/-- `operator==`: false as soon as one linear position differs, scanning the
left operand's element count; otherwise true. -/
def matEqOp (A B : matrix) : Bool :=
  !((List.range A.data.length).any (fun i => A.data.getD i 0 != B.data.getD i 0))

/-! ## `set_row` / `set_col` (`matrix.h` lines 574-598)

The C++ methods mutate the receiver and return a `bool`; we return the pair.
Note the guard in the source really is `row > sizet_rows` (not `>=`): when
`row == sizet_rows` and the source is long enough the method proceeds and
writes through `get_lindex(sizet_rows, indx)`, i.e. outside the target row
range (the last such write, at linear index `rows * cols`, is past the end of
the buffer; `List.set` drops it). -/

def set_row (m : matrix) (row : Nat) (src : matrix) : Bool × matrix :=
  if row > m.rows ∨ src.data.length < m.cols then (false, m)
  else
    (true, ⟨m.rows, m.cols,
      (List.range m.cols).foldl
        (fun acc indx => acc.set (row + indx * m.rows) (src.data.getD indx 0)) m.data⟩)

def set_col (m : matrix) (col : Nat) (src : matrix) : Bool × matrix :=
  if col > m.cols ∨ src.data.length < m.rows then (false, m)
  else
    (true, ⟨m.rows, m.cols,
      (List.range m.rows).foldl
        (fun acc indx => acc.set (indx + col * m.rows) (src.data.getD indx 0)) m.data⟩)

/-! ## Upsample / downsample (`signal.h` lines 118-146) -/

/-- `upsample(mat_arg, uint_u)`: allocates `(u * rows) × cols` (no initial
value, so the buffer starts at the spec-modelled zero) and writes each input
sample at row stride `u`.  For `u ≥ 1` the written positions are exactly the
rows divisible by `u`; for `u = 0` every write of a column lands on row 0 and
the last one (source row `rows - 1`) survives. -/
def upsample (x : matrix) (u : Nat) : matrix :=
  let R := normDim (u * x.rows)
  let C := normDim x.cols
  ⟨R, C, colGrid R C (fun i c =>
    if 0 < u then
      if i % u = 0 ∧ i / u < x.rows ∧ c < x.cols then x.entry (i / u) c else 0
    else if i = 0 ∧ 0 < x.rows ∧ c < x.cols then x.entry (x.rows - 1) c else 0)⟩

/-- `downsample(mat_arg, uint_d)`: allocates `(rows / d) × cols` (buffer at
the spec-modelled zero) and copies every `d`-th input row starting at row 0.
(`d = 0` would divide by zero in the C++; it is excluded by every claim.) -/
def downsample (x : matrix) (d : Nat) : matrix :=
  let R := normDim (x.rows / d)
  let C := normDim x.cols
  ⟨R, C, colGrid R C (fun i c =>
    if i < x.rows / d ∧ c < x.cols then x.entry (i * d) c else 0)⟩

/-! ## The difference-equation filter (`signal.h` lines 150-231)

For each output index `i` the inner loops accumulate
`sum_k x_guard * b(k)` and subtract `sum_{k>=1} y_guard * a(k)`, where the
guards are written in the source as `i < len + k && i + 1 > k` and the `y`
reads only ever reach already-computed outputs (`i - k < i`).  We build the
output list one sample at a time, mirroring the outer loop. -/

/-- The moving-average accumulation for output index `i`:
`for k < size_b: x = (i < size_x + k && i+1 > k) ? x(i-k) : 0; y(i) += x * b(k)`. -/
def bpart (b xs : List Int) (i : Nat) : Int :=
  ((List.range b.length).map (fun k =>
    if i < xs.length + k ∧ k < i + 1 then xs.getD (i - k) 0 * b.getD k 0 else 0)).sum

/-- The autoregressive accumulation for output index `i`, reading the already
computed outputs `ys` (`ylen` is `size_y`, the full output length):
`for 1 <= k < size_a: y = (i < size_y + k && i+1 > k) ? y(i-k) : 0; y(i) -= y * a(k)`. -/
def apart (a ys : List Int) (ylen i : Nat) : Int :=
  ((List.range a.length).map (fun k =>
    if 1 ≤ k ∧ i < ylen + k ∧ k < i + 1 then ys.getD (i - k) 0 * a.getD k 0 else 0)).sum

/-- The first `n` output samples of one filtering channel: sample `i` is
appended after samples `0..i-1` are known, exactly like the in-place loop. -/
def filtOut (b a xs : List Int) (ylen : Nat) : Nat → List Int
  | 0 => []
  | n + 1 =>
      let prev := filtOut b a xs ylen n
      prev ++ [bpart b xs n - apart a prev ylen n]

/-- `filter(mat_arg_b, mat_arg_a, mat_arg_x, size_length)`.  Three shape
regimes: a general matrix is filtered independently per column; a column
vector and a row vector are filtered along their single dimension; any other
shape (scalar or empty input) falls through and returns the
default-constructed matrix. -/
def filter (b a x : matrix) (extra : Nat) : matrix :=
  if 1 < x.cols ∧ 1 < x.rows then
    ⟨normDim (x.rows + extra), normDim x.cols,
      ((List.range x.cols).map
        (fun c => filtOut b.data a.data (x.column c) (x.rows + extra) (x.rows + extra))).flatten⟩
  else if x.cols = 1 ∧ 1 < x.rows then
    ⟨normDim (x.size + extra), normDim 1,
      filtOut b.data a.data x.data (x.size + extra) (x.size + extra)⟩
  else if 1 < x.cols ∧ x.rows = 1 then
    ⟨normDim 1, normDim (x.size + extra),
      filtOut b.data a.data x.data (x.size + extra) (x.size + extra)⟩
  else emptyMat

/-! ## Convolution (`signal.h` lines 234-275) -/

/-- The `matrix<T>(1, 1, 1)` unit-denominator used by `conv`. -/
def unitM : matrix := mkMat 1 1 1

/-- `conv(mat_arg_a, mat_arg_b)`.  Branch order as in the source: first the
operand `b` (then `a`) is tested for being a vector, in which case `filter`
runs with that operand as the FIR numerator and the OTHER operand as the
input; only a non-vector operand can reach the scalar branches.  The two
remaining branches (both operands general) assert and return the
default-constructed matrix. -/
def conv (a b : matrix) : matrix :=
  if (1 < b.rows ∧ b.cols = 1) ∨ (1 < b.cols ∧ b.rows = 1) then
    filter b unitM a (b.size - 1)
  else if (1 < a.rows ∧ a.cols = 1) ∨ (1 < a.cols ∧ a.rows = 1) then
    filter a unitM b (a.size - 1)
  else if b.cols = 1 ∧ b.rows = 1 then
    scalarMulL (b.data.getD 0 0) a
  else if a.cols = 1 ∧ a.rows = 1 then
    scalarMulL (a.data.getD 0 0) b
  else emptyMat

/-! ## Convolution matrix (`signal.h` lines 277-328)

For a column-vector argument the three inner loops fill each of the
`size_len` columns completely: zeros above the band, `mat_arg(row - col)` on
the band, zeros below; the row-vector branch is the transposed layout.  When
`size_len = 0` no loop body runs and the freshly allocated (normalized)
buffer is returned as `allocate` left it (spec-modelled zero). -/
def convmtx (h : matrix) (n : Nat) : matrix :=
  if h.cols = 1 ∧ 1 ≤ h.rows then
    ⟨normDim (h.size + n - 1), normDim n,
      if n = 0 then allocZero (normDim (h.size + n - 1) * normDim n)
      else colGrid (normDim (h.size + n - 1)) (normDim n)
        (fun r c => if c ≤ r ∧ r < h.size + c then h.data.getD (r - c) 0 else 0)⟩
  else if h.rows = 1 ∧ 1 ≤ h.cols then
    ⟨normDim n, normDim (h.size + n - 1),
      if n = 0 then allocZero (normDim n * normDim (h.size + n - 1))
      else colGrid (normDim n) (normDim (h.size + n - 1))
        (fun r c => if r ≤ c ∧ c < h.size + r then h.data.getD (c - r) 0 else 0)⟩
  else emptyMat

/-- Modelled from the spec: `matmul` is declared as a friend of the matrix
class but defined in `linalg.h`, which is not among the given sources.  The
spec only ever uses it as the standard matrix product (the `convmtx(h,n) · x`
equivalence), so it is modelled as exactly that: entry (i, j) of the result
is the sum over k of `A(i, k) * B(k, j)`. -/
def matmul (A B : matrix) : matrix :=
  ⟨A.rows, B.cols, colGrid A.rows B.cols (fun i j =>
    ((List.range A.cols).map (fun k => A.entry i k * B.entry k j)).sum)⟩

/-! ## Toeplitz (`signal.h` lines 347-361)

Entry (row, col) is `mat_col(std::abs((long int)(size_col - uint_row)))`.
The subtraction happens in `size_t` and wraps; on an LP64 platform the cast
to `long int` recovers exactly the signed difference, so the index is
`|col - row|`, modelled as `Int.natAbs` of the signed difference. -/
def toeplitz (col : matrix) : matrix :=
  let n := col.size
  ⟨normDim n, normDim n,
    colGrid (normDim n) (normDim n)
      (fun r c => col.data.getD (((c : Int) - (r : Int)).natAbs) 0)⟩

/-! ## The textual parser (`matrix.h` lines 1212-1307)

`matrix<T>::parser` first counts `;` (a row AND a column separator), line
feeds (row separators) and spaces (column separators) to derive the shape,
failing when the column total does not divide evenly; it then splits rows on
`;` and tokens on a space (a `getline` that hits the end of its stream
yields the empty token), reads each token with `operator>>`, substitutes 0
for a token that fails to read, and stores `T_tmp - T_delta`, where
`T_delta = 0x30` exactly for the 8-bit element types `int8_t`/`uint8_t` and
0 otherwise.  The input string below is the text after `pre_parser` (defined
in a translation unit outside the given sources); tokens are modelled as
character lists. -/

/-- `T_delta` for the 8-bit element types. -/
def T_delta_int8 : Int := 0x30

/-- Splitting a character list at a delimiter, as the successive
`getline(buff, len, delim)` calls produce it (an exhausted stream gives the
empty chunk). -/
def splitChar (sep : Char) (l : List Char) : List (List Char) :=
  l.foldr (fun c acc => if c = sep then [] :: acc else (c :: acc.headD []) :: acc.tail) [[]]

def countCh (ch : Char) (l : List Char) : Nat := (l.filter (fun c => c = ch)).length

/-- `operator>>` into an 8-bit integer extracts a single character (the
element type is a character type), failing only when the token is empty; the
value is the signed char code of that character. -/
def readInt8 (tok : List Char) : Option Int :=
  tok.head?.map (fun ch => if ch.toNat < 128 then (ch.toNat : Int) else (ch.toNat : Int) - 256)

/-- Lines 1290-1291 of `matrix.h`: read the token, substitute 0 on failure,
store the value minus `T_delta`. -/
def storeToken (read : List Char → Option Int) (delta : Int) (tok : List Char) : Int :=
  (match read tok with
   | some v => v
   | none => 0) - delta

/-- `matrix<T>::parser` after `pre_parser`: shape from separator counts
(`none` when the column count does not divide evenly across rows), elements
by splitting and reading tokens, stored column-major. -/
def parserModel (read : List Char → Option Int) (delta : Int) (s : List Char) :
    Option (Nat × Nat × List Int) :=
  let rows_ := countCh ';' s + countCh (Char.ofNat 10) s + 1
  let cols_ := countCh ';' s + countCh ' ' s + 1
  if cols_ % rows_ = 0 then
    let R := rows_
    let C := cols_ / rows_
    some (R, C, colGrid R C (fun r c =>
      storeToken read delta ((splitChar ' ' ((splitChar ';' s).getD r [])).getD c [])))
  else none

/-! ## Lemmas about the filter recursion -/

lemma filtOut_length (b a xs : List Int) (ylen : Nat) :
    ∀ n, (filtOut b a xs ylen n).length = n := by
  intro n
  induction n with
  | zero => rfl
  | succ m ih => unfold filtOut; rw [List.length_append, ih]; rfl

lemma apart_congr {a ys zs : List Int} {L i : Nat}
    (h : ∀ j < i, ys.getD j 0 = zs.getD j 0) : apart a ys L i = apart a zs L i := by
  unfold apart
  congr 1
  refine List.map_congr_left (fun k _ => ?_)
  by_cases hg : 1 ≤ k ∧ i < L + k ∧ k < i + 1
  · rw [if_pos hg, if_pos hg, h (i - k) (by omega)]
  · rw [if_neg hg, if_neg hg]

lemma filtOut_getD {b a xs : List Int} {L : Nat} :
    ∀ {n i : Nat}, i < n →
      (filtOut b a xs L n).getD i 0 = bpart b xs i - apart a (filtOut b a xs L n) L i := by
  intro n
  induction n with
  | zero => omega
  | succ m ih =>
      intro i hi
      have hlen : (filtOut b a xs L m).length = m := filtOut_length b a xs L m
      have hstable : ∀ j < m,
          (filtOut b a xs L m).getD j 0 = (filtOut b a xs L (m + 1)).getD j 0 := by
        intro j hj
        show _ = (filtOut b a xs L m ++ [_]).getD j 0
        rw [List.getD_append _ _ _ _ (by omega)]
      rcases Nat.lt_or_ge i m with him | him
      · have := ih him
        show (filtOut b a xs L m ++ [_]).getD i 0 = _
        rw [List.getD_append _ _ _ _ (by omega), this,
          apart_congr (fun j hj => hstable j (by omega))]
      · have hieq : i = m := by omega
        subst hieq
        show (filtOut b a xs L i ++ [_]).getD i 0 = _
        rw [List.getD_eq_getElem _ _ (by simp [hlen]),
          List.getElem_append_right (by omega)]
        simp only [hlen, Nat.sub_self, List.getElem_singleton]
        rw [apart_congr (fun j hj => hstable j hj)]

/-- The source-form guards rewritten the way the specification states them. -/
lemma bpart_eq_claim {b xs : List Int} {i : Nat} :
    bpart b xs i = ((List.range b.length).map (fun k =>
      if k ≤ i ∧ i - k < xs.length then xs.getD (i - k) 0 * b.getD k 0 else 0)).sum := by
  unfold bpart
  congr 1
  refine List.map_congr_left (fun k _ => ?_)
  exact if_congr (by omega) rfl rfl

lemma apart_eq_claim {a ys : List Int} {L i : Nat} (hi : i < L) :
    apart a ys L i = ((List.range a.length).map (fun k =>
      if 1 ≤ k ∧ k ≤ i then ys.getD (i - k) 0 * a.getD k 0 else 0)).sum := by
  unfold apart
  congr 1
  refine List.map_congr_left (fun k _ => ?_)
  exact if_congr (by omega) rfl rfl

/-- With `b = a = [1]` the filter recursion copies its input. -/
lemma filtOut_unit (xs : List Int) (L : Nat) :
    ∀ n, n ≤ xs.length → filtOut [1] [1] xs L n = xs.take n := by
  intro n
  induction n with
  | zero => simp [filtOut]
  | succ m ih =>
      intro hm
      unfold filtOut
      rw [ih (by omega)]
      have hap : apart [1] (xs.take m) L m = 0 := by
        simp [apart, List.range_succ]
      have hbp : bpart [1] xs m = xs.getD m 0 := by
        unfold bpart
        simp only [List.length_singleton, List.range_succ, List.range_zero,
          List.nil_append, List.map_cons, List.map_nil, List.sum_cons, List.sum_nil]
        rw [if_pos (by omega)]
        simp
      show List.take m xs ++ [bpart [1] xs m - apart [1] (List.take m xs) L m] =
        List.take (m + 1) xs
      rw [hap, hbp, List.getD_eq_getElem _ _ (show m < xs.length by omega),
        List.take_succ, List.getElem?_eq_getElem (show m < xs.length by omega)]
      simp

/-! ## Lemmas about flattened equal-length chunk lists (column-major blocks) -/

lemma flatten_chunks_length {chunks : List (List Int)} {R : Nat}
    (hlen : ∀ ch ∈ chunks, ch.length = R) : chunks.flatten.length = chunks.length * R := by
  induction chunks with
  | nil => simp
  | cons ch rest ih =>
      simp only [List.flatten_cons, List.length_append, List.length_cons]
      rw [hlen ch (by simp), ih (fun c hc => hlen c (by simp [hc]))]
      ring

lemma flatten_chunks_getD {chunks : List (List Int)} {R : Nat}
    (hlen : ∀ ch ∈ chunks, ch.length = R) :
    ∀ {c r : Nat}, r < R → c < chunks.length →
      chunks.flatten.getD (r + c * R) 0 = (chunks.getD c []).getD r 0 := by
  induction chunks with
  | nil => intro c r _ hc; simp at hc
  | cons ch rest ih =>
      intro c r hr hc
      have hch : ch.length = R := hlen ch (by simp)
      cases c with
      | zero =>
          simp only [List.flatten_cons, Nat.zero_mul, Nat.add_zero, List.getD_cons_zero]
          rw [List.getD_append _ _ _ _ (by omega)]
      | succ c' =>
          simp only [List.flatten_cons, List.getD_cons_succ]
          have hrest : ∀ x ∈ rest, x.length = R := fun x hx => hlen x (by simp [hx])
          have hrlen : rest.flatten.length = rest.length * R := flatten_chunks_length hrest
          have hclt : c' < rest.length := by simpa using hc
          have hidx : r + (c' + 1) * R = ch.length + (r + c' * R) := by
            rw [hch]; ring
          have hbound : r + c' * R < rest.flatten.length := by
            rw [hrlen]
            have h3 : (c' + 1) * R ≤ rest.length * R := Nat.mul_le_mul_right _ (by omega)
            have h4 : (c' + 1) * R = c' * R + R := by ring
            omega
          rw [hidx, List.getD_eq_getElem _ _ (by rw [List.length_append]; omega),
            List.getElem_append_right (by omega)]
          have : ch.length + (r + c' * R) - ch.length = r + c' * R := by omega
          simp only [this]
          rw [← List.getD_eq_getElem _ _ (by omega)]
          exact ih hrest hr hclt

lemma getD_map_range {α : Type} {g : Nat → α} {C c : Nat} (d : α) (hc : c < C) :
    ((List.range C).map g).getD c d = g c := by
  rw [List.getD_eq_getElem _ _ (by simp [hc]), List.getElem_map, List.getElem_range]

/-- A well-formed buffer is the flattening of its columns. -/
lemma flatten_columns (m : matrix) (hwf : m.Wf) :
    ((List.range m.cols).map (fun c => m.column c)).flatten = m.data := by
  suffices h : ∀ (C : Nat) (l : List Int) (R : Nat), l.length = R * C →
      ((List.range C).map (fun c => (l.drop (c * R)).take R)).flatten = l by
    have := h m.cols m.data m.rows (by rw [hwf])
    simpa [matrix.column] using this
  intro C
  induction C with
  | zero => intro l R hl; simpa using (List.eq_nil_of_length_eq_zero (by omega)).symm
  | succ C' ih =>
      intro l R hl
      rw [List.range_succ_eq_map, List.map_cons, List.flatten_cons, List.map_map]
      have htail : (List.map ((fun c => (l.drop (c * R)).take R) ∘ Nat.succ) (List.range C')) =
          (List.range C').map (fun c => ((l.drop R).drop (c * R)).take R) := by
        refine List.map_congr_left (fun c _ => ?_)
        simp only [Function.comp]
        rw [List.drop_drop, Nat.succ_mul, Nat.add_comm (c * R) R]
      rw [htail, ih (l.drop R) R (by rw [List.length_drop, hl, Nat.mul_succ]; omega)]
      simp only [Nat.zero_mul, List.drop_zero]
      exact List.take_append_drop R l

/-! ## Regime-selection lemmas for `filter` -/

lemma filter_gen {x : matrix} (b a : matrix) (extra : Nat)
    (h1 : 1 < x.cols) (h2 : 1 < x.rows) :
    filter b a x extra = ⟨normDim (x.rows + extra), normDim x.cols,
      ((List.range x.cols).map
        (fun c => filtOut b.data a.data (x.column c) (x.rows + extra) (x.rows + extra))).flatten⟩ := by
  unfold filter
  rw [if_pos ⟨h1, h2⟩]

lemma filter_col {x : matrix} (b a : matrix) (extra : Nat)
    (h1 : x.cols = 1) (h2 : 1 < x.rows) :
    filter b a x extra = ⟨normDim (x.size + extra), normDim 1,
      filtOut b.data a.data x.data (x.size + extra) (x.size + extra)⟩ := by
  unfold filter
  rw [if_neg (by omega), if_pos ⟨h1, h2⟩]

lemma filter_row {x : matrix} (b a : matrix) (extra : Nat)
    (h1 : 1 < x.cols) (h2 : x.rows = 1) :
    filter b a x extra = ⟨normDim 1, normDim (x.size + extra),
      filtOut b.data a.data x.data (x.size + extra) (x.size + extra)⟩ := by
  unfold filter
  rw [if_neg (by omega), if_neg (by omega), if_pos ⟨h1, h2⟩]

lemma filter_default {x : matrix} (b a : matrix) (extra : Nat)
    (h1 : x.cols ≤ 1) (h2 : x.rows ≤ 1) :
    filter b a x extra = emptyMat := by
  unfold filter
  rw [if_neg (by omega), if_neg (by omega), if_neg (by omega)]

/-- One filtering channel, with the source guards stated the way the
specification writes the difference equation. -/
lemma filt_channel_claim (b a xs : List Int) (L n : Nat) (hn : n < L) :
    (filtOut b a xs L L).getD n 0 =
      ((List.range b.length).map (fun k =>
        if k ≤ n ∧ n - k < xs.length then xs.getD (n - k) 0 * b.getD k 0 else 0)).sum -
      ((List.range a.length).map (fun k =>
        if 1 ≤ k ∧ k ≤ n then (filtOut b a xs L L).getD (n - k) 0 * a.getD k 0 else 0)).sum := by
  rw [filtOut_getD hn, bpart_eq_claim, apart_eq_claim hn]

/-! ## Claim C1: shape and difference equation of `filter` -/

/-- The input length along the filtering axis (`size_x` for the vector
regimes, `size_x_rows` for the general regime). -/
def inLen (x : matrix) : Nat := if x.rows = 1 then x.cols else x.rows

/-- The number of independently filtered channels. -/
def chans (x : matrix) : Nat := if x.rows = 1 ∨ x.cols = 1 then 1 else x.cols

/-- The body of claim C1: the output length along the filtering axis is the
input length plus `extra`, and sample `n` of every channel `c` satisfies
`y[n] = Σ_k b[k]·x[n−k] − Σ_{k≥1} a[k]·y[n−k]` with out-of-range samples
read as zero and `a[0]` never referenced. -/
def C1Concl (b a x : matrix) (extra : Nat) : Prop :=
  ((x.rows = 1 → (filter b a x extra).rows = 1 ∧ (filter b a x extra).cols = inLen x + extra) ∧
   (1 < x.rows → (filter b a x extra).rows = inLen x + extra ∧
      (filter b a x extra).cols = x.cols)) ∧
  (∀ c < chans x, ∀ n < inLen x + extra,
    (filter b a x extra).data.getD (n + c * (inLen x + extra)) 0 =
      ((List.range b.data.length).map (fun k =>
        if k ≤ n ∧ n - k < inLen x then x.entry (n - k) c * b.data.getD k 0 else 0)).sum -
      ((List.range a.data.length).map (fun k =>
        if 1 ≤ k ∧ k ≤ n then
          (filter b a x extra).data.getD ((n - k) + c * (inLen x + extra)) 0 * a.data.getD k 0
        else 0)).sum)

lemma C1_col {b a x : matrix} {extra : Nat} (hwf : x.Wf) (h1 : x.cols = 1) (h2 : 1 < x.rows) :
    C1Concl b a x extra := by
  have hxlen : x.data.length = x.rows := by rw [hwf, h1]; ring
  have hinLen : inLen x = x.data.length := by
    unfold inLen; rw [if_neg (by omega), hxlen]
  have hfe := filter_col (x := x) b a extra h1 h2
  have hdata : (filter b a x extra).data =
      filtOut b.data a.data x.data (x.size + extra) (x.size + extra) := by rw [hfe]
  constructor
  · refine ⟨fun hr1 => absurd hr1 (by omega), fun _ => ?_⟩
    rw [hfe]
    refine ⟨?_, ?_⟩
    · show normDim (x.size + extra) = inLen x + extra
      rw [hinLen]
      show normDim (x.data.length + extra) = _
      rw [normDim_of_pos (by omega)]
    · show normDim 1 = x.cols
      rw [h1]; rfl
  · intro c hc n hn
    have hc0 : c = 0 := by
      unfold chans at hc
      rw [if_pos (Or.inr h1)] at hc
      omega
    subst hc0
    simp only [hinLen] at hn ⊢
    simp only [hdata, matrix.size, matrix.entry, Nat.zero_mul, Nat.add_zero, hxlen]
    have := filt_channel_claim b.data a.data x.data (x.data.length + extra) n hn
    rw [hxlen] at this
    exact this

lemma C1_row {b a x : matrix} {extra : Nat} (hwf : x.Wf) (h1 : 1 < x.cols) (h2 : x.rows = 1) :
    C1Concl b a x extra := by
  have hxlen : x.data.length = x.cols := by rw [hwf, h2]; ring
  have hinLen : inLen x = x.data.length := by
    unfold inLen; rw [if_pos h2, hxlen]
  have hfe := filter_row (x := x) b a extra h1 h2
  have hdata : (filter b a x extra).data =
      filtOut b.data a.data x.data (x.size + extra) (x.size + extra) := by rw [hfe]
  constructor
  · refine ⟨fun _ => ?_, fun hr2 => absurd hr2 (by omega)⟩
    rw [hfe]
    refine ⟨rfl, ?_⟩
    show normDim (x.size + extra) = inLen x + extra
    rw [hinLen]
    show normDim (x.data.length + extra) = _
    rw [normDim_of_pos (by omega)]
  · intro c hc n hn
    have hc0 : c = 0 := by
      unfold chans at hc
      rw [if_pos (Or.inl h2)] at hc
      omega
    subst hc0
    simp only [hinLen] at hn ⊢
    simp only [hdata, matrix.size, matrix.entry, Nat.zero_mul, Nat.add_zero, hxlen]
    have hthis := filt_channel_claim b.data a.data x.data (x.data.length + extra) n hn
    rw [hxlen] at hthis
    exact hthis

lemma C1_gen {b a x : matrix} {extra : Nat} (hwf : x.Wf) (h1 : 1 < x.cols) (h2 : 1 < x.rows) :
    C1Concl b a x extra := by
  have hinLen : inLen x = x.rows := by unfold inLen; rw [if_neg (by omega)]
  have hchans : chans x = x.cols := by unfold chans; rw [if_neg (by omega)]
  have hfe := filter_gen (x := x) b a extra h1 h2
  have hdata : (filter b a x extra).data =
      ((List.range x.cols).map
        (fun c => filtOut b.data a.data (x.column c) (x.rows + extra) (x.rows + extra))).flatten := by
    rw [hfe]
  have hchlen : ∀ ch ∈ (List.range x.cols).map
      (fun c => filtOut b.data a.data (x.column c) (x.rows + extra) (x.rows + extra)),
      ch.length = x.rows + extra := by
    intro ch hch
    simp only [List.mem_map, List.mem_range] at hch
    obtain ⟨c', _, rfl⟩ := hch
    exact filtOut_length _ _ _ _ _
  constructor
  · refine ⟨fun hr1 => absurd hr1 (by omega), fun _ => ?_⟩
    rw [hfe]
    constructor
    · show normDim (x.rows + extra) = inLen x + extra
      rw [hinLen, normDim_of_pos (by omega)]
    · show normDim x.cols = x.cols
      exact normDim_of_pos (by omega)
  · intro c hc n hn
    rw [hchans] at hc
    simp only [hinLen] at hn ⊢
    have hgetDy : ∀ j, j < x.rows + extra →
        (filter b a x extra).data.getD (j + c * (x.rows + extra)) 0 =
          (filtOut b.data a.data (x.column c) (x.rows + extra) (x.rows + extra)).getD j 0 := by
      intro j hj
      rw [hdata, flatten_chunks_getD hchlen hj (by simpa using hc), getD_map_range _ hc]
    rw [hgetDy n hn, filt_channel_claim _ _ _ _ _ hn]
    congr 1
    · simp only [column_length hwf hc]
      refine congrArg List.sum (List.map_congr_left (fun k _ => ?_))
      by_cases hg : k ≤ n ∧ n - k < x.rows
      · rw [if_pos hg, if_pos hg, column_getD hwf hc (by omega)]
      · rw [if_neg hg, if_neg hg]
    · refine congrArg List.sum (List.map_congr_left (fun k _ => ?_))
      by_cases hg : 1 ≤ k ∧ k ≤ n
      · rw [if_pos hg, if_pos hg, hgetDy (n - k) (by omega)]
      · rw [if_neg hg, if_neg hg]

/-- `filter([1], [1], x)` copies its input in all three supported regimes. -/
lemma filter_id {x : matrix} (hwf : x.Wf) (hr : 1 ≤ x.rows) (hc : 1 ≤ x.cols)
    (hns : ¬(x.rows = 1 ∧ x.cols = 1)) : filter unitM unitM x 0 = x := by
  have hu : unitM.data = [1] := rfl
  rcases Nat.lt_or_ge 1 x.rows with h2 | h2
  · rcases Nat.lt_or_ge 1 x.cols with h1 | h1
    · rw [filter_gen unitM unitM 0 h1 h2]
      have hmap : ∀ c ∈ List.range x.cols,
          filtOut unitM.data unitM.data (x.column c) (x.rows + 0) (x.rows + 0) = x.column c := by
        intro c hc'
        have hcl := column_length hwf (List.mem_range.mp hc')
        rw [hu, Nat.add_zero, filtOut_unit _ _ _ (by omega), ← hcl, List.take_length]
      rw [List.map_congr_left hmap, flatten_columns x hwf]
      have hR : normDim (x.rows + 0) = x.rows := by
        rw [Nat.add_zero]; exact normDim_of_pos (by omega)
      rw [hR, normDim_of_pos (by omega : 1 ≤ x.cols)]
    · have h1' : x.cols = 1 := by omega
      rw [filter_col unitM unitM 0 h1' h2]
      have hxlen : x.data.length = x.rows := by rw [hwf, h1']; ring
      simp only [hu, matrix.size, Nat.add_zero]
      rw [filtOut_unit _ _ _ (Nat.le_refl _), List.take_length]
      have hR : normDim x.data.length = x.rows := by
        rw [hxlen]; exact normDim_of_pos (by omega)
      rw [hR]
      show (⟨x.rows, 1, x.data⟩ : matrix) = x
      rw [← h1']
  · have h2' : x.rows = 1 := by omega
    have h1 : 1 < x.cols := by omega
    rw [filter_row unitM unitM 0 h1 h2']
    have hxlen : x.data.length = x.cols := by rw [hwf, h2']; ring
    simp only [hu, matrix.size, Nat.add_zero]
    rw [filtOut_unit _ _ _ (Nat.le_refl _), List.take_length]
    have hC : normDim x.data.length = x.cols := by
      rw [hxlen]; exact normDim_of_pos (by omega)
    rw [hC]
    show (⟨1, x.cols, x.data⟩ : matrix) = x
    rw [← h2']

/-- C1: for coefficient matrices `b`, `a`, an input `x` that is a column
vector, a row vector or a general matrix (filtered per column) and any
`extra_length ≥ 0`, `filter` returns an output whose length along the
filtering axis is the input length plus `extra_length` and whose samples
satisfy `y[n] = Σ_{k<|b|} b[k]·x[n−k] − Σ_{1≤k<|a|} a[k]·y[n−k]` with
out-of-range samples read as zero and `a[0]` never referenced; in
particular `filter([1],[1],x) = x` and `filter([1,1],[1],[1,0,0]) = [1,1,0]`. -/
theorem C1_filter_difference_equation (b a x : matrix) (extra : Nat)
    (hwf : x.Wf) (hr : 1 ≤ x.rows) (hc : 1 ≤ x.cols) (hns : ¬(x.rows = 1 ∧ x.cols = 1)) :
    C1Concl b a x extra ∧ filter unitM unitM x 0 = x ∧
      filter ⟨1, 2, [1, 1]⟩ unitM ⟨3, 1, [1, 0, 0]⟩ 0 = ⟨3, 1, [1, 1, 0]⟩ := by
  refine ⟨?_, filter_id hwf hr hc hns, by decide⟩
  rcases Nat.lt_or_ge 1 x.rows with h2 | h2
  · rcases Nat.lt_or_ge 1 x.cols with h1 | h1
    · exact C1_gen hwf h1 h2
    · exact C1_col hwf (by omega) h2
  · exact C1_row hwf (by omega) (by omega)

/-- Witness for C1 at the concrete column vector `x = [5, 7]ᵀ` with
`b = [2, 3]`, `a = [1, 4]` and `extra_length = 1`. -/
theorem C1_filter_difference_equation_witness :
    (matrix.mk 2 1 [5, 7]).Wf ∧ 1 ≤ (matrix.mk 2 1 [5, 7]).rows ∧
      1 ≤ (matrix.mk 2 1 [5, 7]).cols ∧
      ¬((matrix.mk 2 1 [5, 7]).rows = 1 ∧ (matrix.mk 2 1 [5, 7]).cols = 1) ∧
      (C1Concl ⟨1, 2, [2, 3]⟩ ⟨1, 2, [1, 4]⟩ ⟨2, 1, [5, 7]⟩ 1 ∧
        filter unitM unitM ⟨2, 1, [5, 7]⟩ 0 = ⟨2, 1, [5, 7]⟩ ∧
        filter ⟨1, 2, [1, 1]⟩ unitM ⟨3, 1, [1, 0, 0]⟩ 0 = ⟨3, 1, [1, 1, 0]⟩) :=
  ⟨by decide, by decide, by decide, by decide,
    C1_filter_difference_equation ⟨1, 2, [2, 3]⟩ ⟨1, 2, [1, 4]⟩ ⟨2, 1, [5, 7]⟩ 1
      (by decide) (by decide) (by decide) (by decide)⟩

/-! ## Claim C10: `filter` on a scalar input -/

/-- C10: a 1×1 (scalar) input matches none of `filter`'s three shape regimes;
the default-constructed matrix (0 rows, 0 columns, no elements) is returned
unfilled, for every `b`, `a` and `extra_length`. -/
theorem C10_filter_scalar_empty (b a x : matrix) (extra : Nat)
    (h1 : x.rows = 1) (h2 : x.cols = 1) :
    filter b a x extra = emptyMat ∧
      emptyMat.rows = 0 ∧ emptyMat.cols = 0 ∧ emptyMat.data = [] :=
  ⟨filter_default b a extra (by omega) (by omega), rfl, rfl, rfl⟩

theorem C10_filter_scalar_empty_witness :
    (matrix.mk 1 1 [7]).rows = 1 ∧ (matrix.mk 1 1 [7]).cols = 1 ∧
      (filter ⟨1, 2, [2, 3]⟩ ⟨1, 2, [1, 4]⟩ ⟨1, 1, [7]⟩ 5 = emptyMat ∧
        emptyMat.rows = 0 ∧ emptyMat.cols = 0 ∧ emptyMat.data = []) :=
  ⟨rfl, rfl, C10_filter_scalar_empty ⟨1, 2, [2, 3]⟩ ⟨1, 2, [1, 4]⟩ ⟨1, 1, [7]⟩ 5 rfl rfl⟩

/-! ## Claim C7: single-argument `toeplitz` -/

/-- C7: for a vector `col` of length `n ≥ 1`, `toeplitz(col)` is the n×n
matrix with entry `(i,j) = col[|j−i|]`; consequently it is symmetric and its
diagonal is constantly `col[0]`. -/
theorem C7_toeplitz_symmetric (col : matrix) (hvec : col.rows = 1 ∨ col.cols = 1)
    (hn : 1 ≤ col.size) :
    (toeplitz col).rows = col.size ∧ (toeplitz col).cols = col.size ∧
    (∀ i < col.size, ∀ j < col.size,
      (toeplitz col).entry i j = col.data.getD ((j : Int) - (i : Int)).natAbs 0) ∧
    (∀ i < col.size, ∀ j < col.size, (toeplitz col).entry i j = (toeplitz col).entry j i) ∧
    (∀ i < col.size, (toeplitz col).entry i i = col.data.getD 0 0) := by
  have hnd : normDim col.size = col.size := normDim_of_pos hn
  have hrows : (toeplitz col).rows = col.size := by
    simp only [toeplitz, hnd]
  have hcols : (toeplitz col).cols = col.size := by
    simp only [toeplitz, hnd]
  have hdata : (toeplitz col).data =
      colGrid col.size col.size (fun r c => col.data.getD (((c : Int) - (r : Int)).natAbs) 0) := by
    simp only [toeplitz, hnd]
  have hentry : ∀ i < col.size, ∀ j < col.size,
      (toeplitz col).entry i j = col.data.getD ((j : Int) - (i : Int)).natAbs 0 := by
    intro i hi j hj
    unfold matrix.entry
    rw [hdata, hrows, colGrid_getD _ hi hj]
  have habs : ∀ i j : Nat, ((j : Int) - (i : Int)).natAbs = ((i : Int) - (j : Int)).natAbs := by
    intro i j
    rw [← Int.natAbs_neg, neg_sub]
  refine ⟨hrows, hcols, hentry, fun i hi j hj => ?_, fun i hi => ?_⟩
  · rw [hentry i hi j hj, hentry j hj i hi, habs]
  · rw [hentry i hi i hi]
    simp

theorem C7_toeplitz_symmetric_witness :
    ((matrix.mk 3 1 [7, 8, 9]).rows = 1 ∨ (matrix.mk 3 1 [7, 8, 9]).cols = 1) ∧
      1 ≤ (matrix.mk 3 1 [7, 8, 9]).size ∧
      ((toeplitz ⟨3, 1, [7, 8, 9]⟩).rows = (matrix.mk 3 1 [7, 8, 9]).size ∧
        (toeplitz ⟨3, 1, [7, 8, 9]⟩).cols = (matrix.mk 3 1 [7, 8, 9]).size ∧
        (∀ i < (matrix.mk 3 1 [7, 8, 9]).size, ∀ j < (matrix.mk 3 1 [7, 8, 9]).size,
          (toeplitz ⟨3, 1, [7, 8, 9]⟩).entry i j =
            (matrix.mk 3 1 [7, 8, 9]).data.getD ((j : Int) - (i : Int)).natAbs 0) ∧
        (∀ i < (matrix.mk 3 1 [7, 8, 9]).size, ∀ j < (matrix.mk 3 1 [7, 8, 9]).size,
          (toeplitz ⟨3, 1, [7, 8, 9]⟩).entry i j = (toeplitz ⟨3, 1, [7, 8, 9]⟩).entry j i) ∧
        (∀ i < (matrix.mk 3 1 [7, 8, 9]).size,
          (toeplitz ⟨3, 1, [7, 8, 9]⟩).entry i i = (matrix.mk 3 1 [7, 8, 9]).data.getD 0 0)) :=
  ⟨by decide, by decide, C7_toeplitz_symmetric ⟨3, 1, [7, 8, 9]⟩ (by decide) (by decide)⟩

/-! ## Claim C8: equality and inequality operators -/

/-- C8: for matrices with equal total element counts, `operator==` is true
iff every linear position agrees, `operator!=` is its exact negation, and
shapes are never compared (equal buffers always compare equal). -/
theorem C8_equality_linear_scan (A B : matrix) (hsz : A.data.length = B.data.length) :
    (matEqOp A B = true ↔ ∀ i < A.data.length, A.data.getD i 0 = B.data.getD i 0) ∧
    matNeOp A B = !matEqOp A B ∧
    (A.data = B.data → matEqOp A B = true) := by
  refine ⟨?_, ?_, ?_⟩
  · simp only [matEqOp, Bool.not_eq_true', List.any_eq_false, List.mem_range,
      bne_iff_ne, not_not]
  · simp [matNeOp, matEqOp]
  · intro hd
    simp [matEqOp, hd]

theorem C8_equality_linear_scan_witness :
    (matrix.mk 2 3 [1, 2, 3, 4, 5, 6]).data.length =
        (matrix.mk 3 2 [1, 2, 3, 4, 5, 6]).data.length ∧
      ((matEqOp ⟨2, 3, [1, 2, 3, 4, 5, 6]⟩ ⟨3, 2, [1, 2, 3, 4, 5, 6]⟩ = true ↔
          ∀ i < (matrix.mk 2 3 [1, 2, 3, 4, 5, 6]).data.length,
            (matrix.mk 2 3 [1, 2, 3, 4, 5, 6]).data.getD i 0 =
              (matrix.mk 3 2 [1, 2, 3, 4, 5, 6]).data.getD i 0) ∧
        matNeOp ⟨2, 3, [1, 2, 3, 4, 5, 6]⟩ ⟨3, 2, [1, 2, 3, 4, 5, 6]⟩ =
          !matEqOp ⟨2, 3, [1, 2, 3, 4, 5, 6]⟩ ⟨3, 2, [1, 2, 3, 4, 5, 6]⟩ ∧
        ((matrix.mk 2 3 [1, 2, 3, 4, 5, 6]).data = (matrix.mk 3 2 [1, 2, 3, 4, 5, 6]).data →
          matEqOp ⟨2, 3, [1, 2, 3, 4, 5, 6]⟩ ⟨3, 2, [1, 2, 3, 4, 5, 6]⟩ = true)) :=
  ⟨by decide, C8_equality_linear_scan ⟨2, 3, [1, 2, 3, 4, 5, 6]⟩ ⟨3, 2, [1, 2, 3, 4, 5, 6]⟩
    (by decide)⟩

/-! ## Claim C4: element-wise arithmetic on mismatched shapes -/

/-- C4 as amended: for a NON-EMPTY left operand `A` and any `B` of different
shape, each element-wise operation returns a matrix of A's shape whose buffer
is exactly as `allocate` left it — all zero under the spec's
default-initialized allocation. -/
theorem C4_mismatch_zero_fill_amended (A B : matrix)
    (hr : 1 ≤ A.rows) (hc : 1 ≤ A.cols)
    (hmm : ¬(A.rows = B.rows ∧ A.cols = B.cols)) :
    matAdd A B = ⟨A.rows, A.cols, List.replicate (A.rows * A.cols) 0⟩ ∧
    matSub A B = ⟨A.rows, A.cols, List.replicate (A.rows * A.cols) 0⟩ ∧
    matMulE A B = ⟨A.rows, A.cols, List.replicate (A.rows * A.cols) 0⟩ ∧
    matDivE A B = ⟨A.rows, A.cols, List.replicate (A.rows * A.cols) 0⟩ := by
  have h : ∀ f : Int → Int → Int,
      ewise f A B = ⟨A.rows, A.cols, List.replicate (A.rows * A.cols) 0⟩ := by
    intro f
    simp only [ewise, if_neg hmm, allocZero, normDim_of_pos hr, normDim_of_pos hc]
  exact ⟨h _, h _, h _, h _⟩

/-- C4 counterexample: with the empty matrix as left operand the shapes
differ, but the constructors' dimension normalization makes the result 1×1,
not 0×0, so the result does not have the left operand's shape. -/
theorem C4_mismatch_zero_fill_counterexample :
    ¬(emptyMat.rows = (matrix.mk 2 2 [1, 2, 3, 4]).rows ∧
        emptyMat.cols = (matrix.mk 2 2 [1, 2, 3, 4]).cols) ∧
      (matAdd emptyMat ⟨2, 2, [1, 2, 3, 4]⟩).rows = 1 ∧ emptyMat.rows = 0 := by decide

theorem C4_mismatch_zero_fill_witness :
    1 ≤ (matrix.mk 2 2 [1, 2, 3, 4]).rows ∧ 1 ≤ (matrix.mk 2 2 [1, 2, 3, 4]).cols ∧
      ¬((matrix.mk 2 2 [1, 2, 3, 4]).rows = (matrix.mk 1 4 [1, 2, 3, 4]).rows ∧
        (matrix.mk 2 2 [1, 2, 3, 4]).cols = (matrix.mk 1 4 [1, 2, 3, 4]).cols) ∧
      (matAdd ⟨2, 2, [1, 2, 3, 4]⟩ ⟨1, 4, [1, 2, 3, 4]⟩ = ⟨2, 2, List.replicate 4 0⟩ ∧
        matSub ⟨2, 2, [1, 2, 3, 4]⟩ ⟨1, 4, [1, 2, 3, 4]⟩ = ⟨2, 2, List.replicate 4 0⟩ ∧
        matMulE ⟨2, 2, [1, 2, 3, 4]⟩ ⟨1, 4, [1, 2, 3, 4]⟩ = ⟨2, 2, List.replicate 4 0⟩ ∧
        matDivE ⟨2, 2, [1, 2, 3, 4]⟩ ⟨1, 4, [1, 2, 3, 4]⟩ = ⟨2, 2, List.replicate 4 0⟩) :=
  ⟨by decide, by decide, by decide,
    C4_mismatch_zero_fill_amended ⟨2, 2, [1, 2, 3, 4]⟩ ⟨1, 4, [1, 2, 3, 4]⟩
      (by decide) (by decide) (by decide)⟩

/-! ## Claim C5: `set_row` / `set_col` off-by-one -/

/-- C5 (the failing input of the code bug): on a 2×2 matrix, `set_row(2, src)`
with a 1×2 source has its target index out of range (`2 ≥ rows = 2`), so per
the claim it must return `false`; but the source guard tests
`row > sizet_rows` instead of `row >= sizet_rows`, so the call returns `true`
and the copy loop writes through `get_lindex(2, k)` — linear indices 2 and 4,
i.e. into element (0, 1) of the matrix and past the end of the 4-element
buffer.  `set_col` has the same off-by-one. -/
theorem C5_set_row_col_off_by_one :
    ((set_row ⟨2, 2, [1, 2, 3, 4]⟩ 2 ⟨1, 2, [9, 9]⟩).1 = true ∧
      ¬(2 < (matrix.mk 2 2 [1, 2, 3, 4]).rows) ∧
      (set_row ⟨2, 2, [1, 2, 3, 4]⟩ 2 ⟨1, 2, [9, 9]⟩).2.data = [1, 2, 9, 4]) ∧
    ((set_col ⟨2, 2, [1, 2, 3, 4]⟩ 2 ⟨1, 2, [9, 9]⟩).1 = true ∧
      ¬(2 < (matrix.mk 2 2 [1, 2, 3, 4]).cols)) := by decide

/-! ## Claim C6: `downsample(upsample(x, u), u) == x` -/

lemma matEqOp_refl (A : matrix) : matEqOp A A = true := by
  simp [matEqOp]

/-- C6 as amended: for every NON-EMPTY matrix `x` and every `u ≥ 1`,
`downsample(upsample(x, u), u)` is `x` itself — same shape, same elements —
and `operator==` agrees. -/
theorem C6_downsample_upsample_amended (x : matrix) (u : Nat)
    (hwf : x.Wf) (hr : 1 ≤ x.rows) (hc : 1 ≤ x.cols) (hu : 1 ≤ u) :
    downsample (upsample x u) u = x ∧
      matEqOp (downsample (upsample x u) u) x = true := by
  have hur : 1 ≤ u * x.rows := Nat.mul_pos (by omega) (by omega)
  have hU : upsample x u = ⟨u * x.rows, x.cols,
      colGrid (u * x.rows) x.cols (fun i c =>
        if 0 < u then
          if i % u = 0 ∧ i / u < x.rows ∧ c < x.cols then x.entry (i / u) c else 0
        else if i = 0 ∧ 0 < x.rows ∧ c < x.cols then x.entry (x.rows - 1) c else 0)⟩ := by
    simp only [upsample, normDim_of_pos hur, normDim_of_pos hc]
  have hdiv : u * x.rows / u = x.rows := Nat.mul_div_cancel_left _ (by omega)
  have hxeta : x = ⟨x.rows, x.cols, x.data⟩ := rfl
  have hmain : downsample (upsample x u) u = x := by
    rw [hU]
    simp only [downsample, hdiv, normDim_of_pos hr, normDim_of_pos hc]
    rw [hxeta, matrix.mk.injEq]
    refine ⟨rfl, rfl, ?_⟩
    refine Eq.trans (colGrid_congr (g := fun r c => x.entry r c) ?_) (colGrid_entry x hwf)
    intro i hi c hcc
    rw [if_pos ⟨hi, hcc⟩]
    show (colGrid (u * x.rows) x.cols _).getD (i * u + c * (u * x.rows)) 0 = x.entry i c
    have hiu : i * u < u * x.rows := by
      have h1 : i * u < x.rows * u := (Nat.mul_lt_mul_right (by omega : 0 < u)).mpr hi
      rw [Nat.mul_comm x.rows u] at h1
      exact h1
    rw [colGrid_getD _ hiu hcc, if_pos (show 0 < u by omega),
      if_pos ⟨Nat.mul_mod_left i u, by rw [Nat.mul_div_cancel _ (by omega)]; exact hi, hcc⟩,
      Nat.mul_div_cancel _ (by omega)]
  exact ⟨hmain, by rw [hmain]; exact matEqOp_refl x⟩

/-- C6 counterexample: for the empty matrix the constructors' dimension
normalization produces a 1×1 zero matrix, not the empty matrix back. -/
theorem C6_downsample_upsample_counterexample :
    downsample (upsample emptyMat 2) 2 ≠ emptyMat ∧
      (downsample (upsample emptyMat 2) 2).rows = 1 ∧ emptyMat.rows = 0 := by decide

theorem C6_downsample_upsample_witness :
    (matrix.mk 2 2 [1, 2, 3, 4]).Wf ∧ 1 ≤ (matrix.mk 2 2 [1, 2, 3, 4]).rows ∧
      1 ≤ (matrix.mk 2 2 [1, 2, 3, 4]).cols ∧ 1 ≤ 3 ∧
      (downsample (upsample ⟨2, 2, [1, 2, 3, 4]⟩ 3) 3 = ⟨2, 2, [1, 2, 3, 4]⟩ ∧
        matEqOp (downsample (upsample ⟨2, 2, [1, 2, 3, 4]⟩ 3) 3) ⟨2, 2, [1, 2, 3, 4]⟩ = true) :=
  ⟨by decide, by decide, by decide, by decide,
    C6_downsample_upsample_amended ⟨2, 2, [1, 2, 3, 4]⟩ 3 (by decide) (by decide)
      (by decide) (by decide)⟩

/-! ## Claim C3: `conv` with a scalar operand -/

lemma scalarMulL_eq (t : Int) (m : matrix) (hwf : m.Wf) (hr : 1 ≤ m.rows) (hc : 1 ≤ m.cols) :
    scalarMulL t m = ⟨m.rows, m.cols, m.data.map (fun v => t * v)⟩ := by
  simp only [scalarMulL, normDim_of_pos hr, normDim_of_pos hc]
  rw [matrix.mk.injEq]
  refine ⟨rfl, rfl, ?_⟩
  apply list_eq_of_getD
  · rw [List.length_map, List.length_range, List.length_map, hwf]
  · intro i hi
    rw [List.length_map, List.length_range] at hi
    rw [getD_map_range _ hi, if_pos (show i < m.data.length by rw [hwf]; exact hi)]
    rw [List.getD_eq_getElem _ _ (show i < (m.data.map _).length by
        rw [List.length_map, hwf]; exact hi),
      List.getElem_map,
      List.getD_eq_getElem _ _ (show i < m.data.length by rw [hwf]; exact hi)]

/-- `conv` branch selection when the second operand is a vector. -/
lemma conv_bvec {a b : matrix} (hb : (1 < b.rows ∧ b.cols = 1) ∨ (1 < b.cols ∧ b.rows = 1)) :
    conv a b = filter b unitM a (b.size - 1) := by
  unfold conv
  rw [if_pos hb]

/-- `conv` branch selection when only the first operand is a vector. -/
lemma conv_avec {a b : matrix}
    (hnb : ¬((1 < b.rows ∧ b.cols = 1) ∨ (1 < b.cols ∧ b.rows = 1)))
    (ha : (1 < a.rows ∧ a.cols = 1) ∨ (1 < a.cols ∧ a.rows = 1)) :
    conv a b = filter a unitM b (a.size - 1) := by
  unfold conv
  rw [if_neg hnb, if_pos ha]

/-- C3 as amended: when one operand of `conv` is a 1×1 scalar, the result is
the other operand scaled element-wise ONLY when that other operand is itself
a scalar or a general (rows > 1 and cols > 1) matrix; when the other operand
is a vector, the vector branch runs `filter` on the scalar as input and the
result is the EMPTY matrix. -/
theorem C3_conv_scalar_amended (p q : matrix) (hp : p.Wf) (hq : q.Wf)
    (hpr : p.rows = 1) (hpc : p.cols = 1) :
    (q.rows = 1 ∧ q.cols = 1 →
      conv p q = ⟨1, 1, [p.data.getD 0 0 * q.data.getD 0 0]⟩ ∧
      conv q p = ⟨1, 1, [p.data.getD 0 0 * q.data.getD 0 0]⟩) ∧
    (1 < q.rows ∧ 1 < q.cols →
      (conv p q).rows = q.rows ∧ (conv p q).cols = q.cols ∧
      (∀ i < q.data.length, (conv p q).data.getD i 0 = p.data.getD 0 0 * q.data.getD i 0) ∧
      conv q p = conv p q) ∧
    ((1 < q.rows ∧ q.cols = 1) ∨ (1 < q.cols ∧ q.rows = 1) →
      conv p q = emptyMat ∧ conv q p = emptyMat) := by
  have hplen : p.data.length = 1 := by rw [hp, hpr, hpc]
  obtain ⟨pv, hpv⟩ := List.length_eq_one.mp hplen
  refine ⟨?_, ?_, ?_⟩
  · rintro ⟨hqr, hqc⟩
    have hqlen : q.data.length = 1 := by rw [hq, hqr, hqc]
    obtain ⟨qv, hqv⟩ := List.length_eq_one.mp hqlen
    constructor
    · have : conv p q = scalarMulL (q.data.getD 0 0) p := by
        unfold conv
        rw [if_neg (by omega), if_neg (by omega), if_pos ⟨hqc, hqr⟩]
      rw [this, scalarMulL_eq _ p hp (by omega) (by omega), hpr, hpc, hpv, hqv]
      simp [Int.mul_comm]
    · have : conv q p = scalarMulL (p.data.getD 0 0) q := by
        unfold conv
        rw [if_neg (by omega), if_neg (by omega), if_pos ⟨hpc, hpr⟩]
      rw [this, scalarMulL_eq _ q hq (by omega) (by omega), hqr, hqc, hpv, hqv]
      simp
  · rintro ⟨hqr, hqc⟩
    have hpq : conv p q = scalarMulL (p.data.getD 0 0) q := by
      unfold conv
      rw [if_neg (by omega), if_neg (by omega), if_neg (by omega), if_pos ⟨hpc, hpr⟩]
    have hqp : conv q p = scalarMulL (p.data.getD 0 0) q := by
      unfold conv
      rw [if_neg (by omega), if_neg (by omega), if_pos ⟨hpc, hpr⟩]
    have hs := scalarMulL_eq (p.data.getD 0 0) q hq (by omega) (by omega)
    refine ⟨by rw [hpq, hs], by rw [hpq, hs], ?_, by rw [hpq, hqp]⟩
    intro i hi
    rw [hpq, hs]
    show (q.data.map _).getD i 0 = _
    rw [List.getD_eq_getElem _ _ (by rw [List.length_map]; exact hi), List.getElem_map,
      List.getD_eq_getElem _ _ hi]
  · intro hqvec
    constructor
    · rw [conv_bvec hqvec]
      exact filter_default q unitM (q.size - 1) (by omega) (by omega)
    · rw [conv_avec (by omega) hqvec]
      exact filter_default q unitM (q.size - 1) (by omega) (by omega)

/-- C3 counterexample: `conv` of the scalar `[3]` with the column vector
`[1, 2]ᵀ` takes the vector branch, runs `filter` with the scalar as input,
and returns the empty matrix — not the scaled vector `[3, 6]ᵀ` the claim
requires. -/
theorem C3_conv_scalar_counterexample :
    (matrix.mk 1 1 [3]).rows = 1 ∧ (matrix.mk 1 1 [3]).cols = 1 ∧
      conv ⟨1, 1, [3]⟩ ⟨2, 1, [1, 2]⟩ = emptyMat ∧
      conv ⟨1, 1, [3]⟩ ⟨2, 1, [1, 2]⟩ ≠ ⟨2, 1, [3, 6]⟩ := by decide

theorem C3_conv_scalar_witness :
    (matrix.mk 1 1 [3]).Wf ∧ (matrix.mk 2 2 [1, 2, 3, 4]).Wf ∧
      (matrix.mk 1 1 [3]).rows = 1 ∧ (matrix.mk 1 1 [3]).cols = 1 ∧
      (((matrix.mk 2 2 [1, 2, 3, 4]).rows = 1 ∧ (matrix.mk 2 2 [1, 2, 3, 4]).cols = 1 →
        conv ⟨1, 1, [3]⟩ ⟨2, 2, [1, 2, 3, 4]⟩ =
          ⟨1, 1, [(matrix.mk 1 1 [3]).data.getD 0 0 *
            (matrix.mk 2 2 [1, 2, 3, 4]).data.getD 0 0]⟩ ∧
        conv ⟨2, 2, [1, 2, 3, 4]⟩ ⟨1, 1, [3]⟩ =
          ⟨1, 1, [(matrix.mk 1 1 [3]).data.getD 0 0 *
            (matrix.mk 2 2 [1, 2, 3, 4]).data.getD 0 0]⟩) ∧
      (1 < (matrix.mk 2 2 [1, 2, 3, 4]).rows ∧ 1 < (matrix.mk 2 2 [1, 2, 3, 4]).cols →
        (conv ⟨1, 1, [3]⟩ ⟨2, 2, [1, 2, 3, 4]⟩).rows = (matrix.mk 2 2 [1, 2, 3, 4]).rows ∧
        (conv ⟨1, 1, [3]⟩ ⟨2, 2, [1, 2, 3, 4]⟩).cols = (matrix.mk 2 2 [1, 2, 3, 4]).cols ∧
        (∀ i < (matrix.mk 2 2 [1, 2, 3, 4]).data.length,
          (conv ⟨1, 1, [3]⟩ ⟨2, 2, [1, 2, 3, 4]⟩).data.getD i 0 =
            (matrix.mk 1 1 [3]).data.getD 0 0 *
              (matrix.mk 2 2 [1, 2, 3, 4]).data.getD i 0) ∧
        conv ⟨2, 2, [1, 2, 3, 4]⟩ ⟨1, 1, [3]⟩ = conv ⟨1, 1, [3]⟩ ⟨2, 2, [1, 2, 3, 4]⟩) ∧
      ((1 < (matrix.mk 2 2 [1, 2, 3, 4]).rows ∧ (matrix.mk 2 2 [1, 2, 3, 4]).cols = 1) ∨
          (1 < (matrix.mk 2 2 [1, 2, 3, 4]).cols ∧ (matrix.mk 2 2 [1, 2, 3, 4]).rows = 1) →
        conv ⟨1, 1, [3]⟩ ⟨2, 2, [1, 2, 3, 4]⟩ = emptyMat ∧
        conv ⟨2, 2, [1, 2, 3, 4]⟩ ⟨1, 1, [3]⟩ = emptyMat)) :=
  ⟨by decide, by decide, by decide, by decide,
    C3_conv_scalar_amended ⟨1, 1, [3]⟩ ⟨2, 2, [1, 2, 3, 4]⟩
      (by decide) (by decide) (by decide) (by decide)⟩

/-! ## Claim C9: parser token fallback -/

/-- C9 as amended: a token that fails to convert is substituted by 0 BEFORE
the `T_delta` subtraction, so the stored element is `0 - T_delta`: exactly
zero for the non-8-bit element types (`T_delta = 0`), but `-0x30 = -48`
(int8_t; `0xD0` after uint8_t wraparound) for the 8-bit types; the parse as
a whole still succeeds, as the concrete parse of `"1 ;2 3"` under the int8
reader shows (its second token of row 0 is empty and is stored as −48). -/
theorem C9_parser_token_fallback_amended (read : List Char → Option Int) (tok : List Char)
    (hfail : read tok = none) :
    storeToken read 0 tok = 0 ∧
    storeToken read T_delta_int8 tok = -48 ∧
    readInt8 [] = none ∧
    parserModel readInt8 T_delta_int8 ['1', ' ', ';', '2', ' ', '3'] =
      some (2, 2, [1, 2, -48, 3]) := by
  refine ⟨?_, ?_, rfl, by decide⟩
  · simp [storeToken, hfail]
  · simp [storeToken, hfail, T_delta_int8]

/-- C9 counterexample: for the 8-bit element types an unparsable (empty)
token is stored as −48, not zero. -/
theorem C9_parser_token_fallback_counterexample :
    readInt8 [] = none ∧ storeToken readInt8 T_delta_int8 [] = -48 ∧
      storeToken readInt8 T_delta_int8 [] ≠ 0 := by decide

theorem C9_parser_token_fallback_witness :
    readInt8 [] = none ∧
      (storeToken readInt8 0 [] = 0 ∧
        storeToken readInt8 T_delta_int8 [] = -48 ∧
        readInt8 [] = none ∧
        parserModel readInt8 T_delta_int8 ['1', ' ', ';', '2', ' ', '3'] =
          some (2, 2, [1, 2, -48, 3])) :=
  ⟨rfl, C9_parser_token_fallback_amended readInt8 [] rfl⟩

/-! ## Claim C2: `convmtx` shape, shift structure, and the product identity -/

lemma unitM_data : unitM.data = [1] := rfl

lemma apart_unit (ys : List Int) (L i : Nat) : apart [1] ys L i = 0 := by
  simp [apart, List.range_succ]

lemma colGrid_getD0 {R C r : Nat} (f : Nat → Nat → Int) (hr : r < R) (hc : 0 < C) :
    (colGrid R C f).getD r 0 = f r 0 := by
  have := colGrid_getD f hr hc
  simpa using this

lemma convmtx_col {h : matrix} {n : Nat} (h1 : h.cols = 1) (h2 : 1 ≤ h.rows) (hn : 1 ≤ n) :
    convmtx h n = ⟨normDim (h.size + n - 1), normDim n,
      colGrid (normDim (h.size + n - 1)) (normDim n)
        (fun r c => if c ≤ r ∧ r < h.size + c then h.data.getD (r - c) 0 else 0)⟩ := by
  unfold convmtx
  rw [if_pos ⟨h1, h2⟩, if_neg (show ¬n = 0 by omega)]

lemma convmtx_row {h : matrix} {n : Nat} (h1 : h.rows = 1) (h2 : 2 ≤ h.cols) (hn : 1 ≤ n) :
    convmtx h n = ⟨normDim n, normDim (h.size + n - 1),
      colGrid (normDim n) (normDim (h.size + n - 1))
        (fun r c => if r ≤ c ∧ c < h.size + r then h.data.getD (c - r) 0 else 0)⟩ := by
  unfold convmtx
  rw [if_neg (by omega), if_pos ⟨h1, by omega⟩, if_neg (show ¬n = 0 by omega)]

lemma convmtx_col_shape {h : matrix} {n : Nat} (hwf : h.Wf) (h1 : h.cols = 1)
    (h2 : 1 ≤ h.rows) (hn : 1 ≤ n) :
    (convmtx h n).rows = h.size + n - 1 ∧ (convmtx h n).cols = n := by
  have hsz : 1 ≤ h.size := by
    show 1 ≤ h.data.length
    rw [hwf, h1]
    omega
  rw [convmtx_col h1 h2 hn]
  exact ⟨normDim_of_pos (by omega), normDim_of_pos hn⟩

lemma convmtx_col_entry {h : matrix} {n : Nat} (hwf : h.Wf) (h1 : h.cols = 1)
    (h2 : 1 ≤ h.rows) (hn : 1 ≤ n) {r c : Nat} (hr : r < h.size + n - 1) (hc : c < n) :
    (convmtx h n).entry r c = if c ≤ r ∧ r < h.size + c then h.data.getD (r - c) 0 else 0 := by
  have hsz : 1 ≤ h.size := by
    show 1 ≤ h.data.length
    rw [hwf, h1]
    omega
  have hR : normDim (h.size + n - 1) = h.size + n - 1 := normDim_of_pos (by omega)
  have hC : normDim n = n := normDim_of_pos hn
  unfold matrix.entry
  rw [convmtx_col h1 h2 hn]
  show (colGrid (normDim (h.size + n - 1)) (normDim n) _).getD
    (r + c * normDim (h.size + n - 1)) 0 = _
  rw [hR, hC]
  exact colGrid_getD _ hr hc

lemma convmtx_row_shape {h : matrix} {n : Nat} (hwf : h.Wf) (h1 : h.rows = 1)
    (h2 : 2 ≤ h.cols) (hn : 1 ≤ n) :
    (convmtx h n).rows = n ∧ (convmtx h n).cols = h.size + n - 1 := by
  have hsz : 1 ≤ h.size := by
    show 1 ≤ h.data.length
    rw [hwf, h1]
    omega
  rw [convmtx_row h1 h2 hn]
  exact ⟨normDim_of_pos hn, normDim_of_pos (by omega)⟩

lemma convmtx_row_entry {h : matrix} {n : Nat} (hwf : h.Wf) (h1 : h.rows = 1)
    (h2 : 2 ≤ h.cols) (hn : 1 ≤ n) {r c : Nat} (hr : r < n) (hc : c < h.size + n - 1) :
    (convmtx h n).entry r c = if r ≤ c ∧ c < h.size + r then h.data.getD (c - r) 0 else 0 := by
  have hsz : 1 ≤ h.size := by
    show 1 ≤ h.data.length
    rw [hwf, h1]
    omega
  have hR : normDim n = n := normDim_of_pos hn
  have hC : normDim (h.size + n - 1) = h.size + n - 1 := normDim_of_pos (by omega)
  unfold matrix.entry
  rw [convmtx_row h1 h2 hn]
  show (colGrid (normDim n) (normDim (h.size + n - 1)) _).getD (r + c * normDim n) 0 = _
  rw [hR, hC]
  exact colGrid_getD _ hr hc

/-- The product identity, for a column-vector impulse response of length ≥ 2
against a column vector of length ≥ 2. -/
lemma C2_product {h x : matrix} {n : Nat} (hwf : h.Wf) (hxwf : x.Wf)
    (hcol : h.cols = 1) (hm2 : 2 ≤ h.rows) (hxc : x.cols = 1) (hxr : x.rows = n)
    (hn2 : 2 ≤ n) :
    matmul (convmtx h n) x = conv h x := by
  have hhlen : h.data.length = h.rows := by rw [hwf, hcol]; omega
  have hxlen : x.data.length = n := by rw [hxwf, hxc]; omega
  have hss : h.size = h.data.length := rfl
  have hconv : conv h x = filter x unitM h (x.size - 1) :=
    conv_bvec (Or.inl ⟨by omega, hxc⟩)
  have hfilt := filter_col (x := h) x unitM (x.size - 1) hcol (by omega)
  have hL : h.size + (x.size - 1) = h.data.length + n - 1 := by
    show h.data.length + (x.data.length - 1) = h.data.length + n - 1
    rw [hxlen]
    omega
  have hcms := convmtx_col_shape (n := n) hwf hcol (by omega) (by omega)
  rw [hconv, hfilt, hL]
  unfold matmul
  rw [matrix.mk.injEq]
  refine ⟨?_, ?_, ?_⟩
  · rw [hcms.1, hss, normDim_of_pos (by omega)]
  · rw [hxc]
    decide
  · apply list_eq_of_getD
    · rw [colGrid_length, filtOut_length, hcms.1, hxc, hss]
      omega
    · intro i hi
      rw [colGrid_length, hcms.1, hxc, hss] at hi
      have hiK : i < h.data.length + n - 1 := by omega
      rw [filtOut_getD hiK, unitM_data, apart_unit, sub_zero, bpart_eq_claim]
      rw [colGrid_getD0 _ (show i < (convmtx h n).rows by rw [hcms.1, hss]; omega)
        (show 0 < x.cols by omega)]
      rw [hcms.2, hxlen]
      refine congrArg List.sum (List.map_congr_left (fun k hk => ?_))
      have hkn : k < n := List.mem_range.mp hk
      rw [convmtx_col_entry hwf hcol (by omega) (by omega)
        (show i < h.size + n - 1 by rw [hss]; omega) hkn]
      simp only [matrix.entry, Nat.zero_mul, Nat.add_zero]
      rw [ite_mul, zero_mul]
      refine if_congr ?_ rfl rfl
      show (k ≤ i ∧ i < h.size + k) ↔ (k ≤ i ∧ i - k < h.data.length)
      rw [hss]
      omega

/-- The degenerate product identity at `m = n = 1`: both `h` and `x` are 1×1,
`conv` reaches its scalar branch (signal.h lines 252-257) and returns the 1×1
product, which is exactly `convmtx(h, 1) · x`. -/
lemma C2_product_scalar {h x : matrix} (hwf : h.Wf) (hxwf : x.Wf)
    (hcol : h.cols = 1) (hm1 : h.rows = 1) (hxc : x.cols = 1) (hxr : x.rows = 1) :
    matmul (convmtx h 1) x = conv h x := by
  have hhlen : h.data.length = 1 := by rw [hwf, hm1, hcol]
  have hxlen : x.data.length = 1 := by rw [hxwf, hxr, hxc]
  obtain ⟨hv, hhv⟩ := List.length_eq_one.mp hhlen
  obtain ⟨xv, hxv⟩ := List.length_eq_one.mp hxlen
  have hconv : conv h x = scalarMulL (x.data.getD 0 0) h := by
    unfold conv
    rw [if_neg (by omega), if_neg (by omega), if_pos ⟨hxc, hxr⟩]
  rw [hconv, scalarMulL_eq _ h hwf (by omega) (by omega), hxv]
  have hcR : (convmtx h 1).rows = 1 := by
    rw [(convmtx_col_shape (n := 1) hwf hcol (by omega) (by omega)).1]
    show h.data.length + 1 - 1 = 1
    omega
  have hcC : (convmtx h 1).cols = 1 :=
    (convmtx_col_shape (n := 1) hwf hcol (by omega) (by omega)).2
  have hentry : (convmtx h 1).entry 0 0 = hv := by
    rw [convmtx_col_entry hwf hcol (by omega) (by omega) (r := 0) (c := 0)
      (show 0 < h.size + 1 - 1 by show 0 < h.data.length + 1 - 1; omega) (by omega)]
    rw [if_pos ⟨Nat.le_refl 0, show 0 < h.size + 0 by show 0 < h.data.length + 0; omega⟩]
    rw [hhv]
    rfl
  have hxe : x.entry 0 0 = xv := by
    simp [matrix.entry, hxv]
  unfold matmul
  rw [matrix.mk.injEq]
  refine ⟨by rw [hcR, hm1], by rw [hxc, hcol], ?_⟩
  rw [hcR, hxc]
  show [((List.range (convmtx h 1).cols).map
    (fun k => (convmtx h 1).entry 0 k * x.entry k 0)).sum] = _
  rw [hcC]
  simp only [List.range_succ, List.range_zero, List.nil_append, List.map_cons,
    List.map_nil, List.sum_cons, List.sum_nil, add_zero]
  rw [hentry, hxe, hhv]
  simp [Int.mul_comm]

/-- The product identity fails when `h` is a true column vector (`m ≥ 2`) but
`n = 1`: `conv` runs `filter` with the 1×1 `x` as input and returns the empty
matrix, while the product is a nonempty column. -/
lemma C2_fail_n1 {h x : matrix} (hwf : h.Wf) (hcol : h.cols = 1)
    (hm2 : 2 ≤ h.rows) (hxc : x.cols = 1) (hxr : x.rows = 1) :
    conv h x = emptyMat ∧ matmul (convmtx h 1) x ≠ conv h x := by
  have hhlen : h.data.length = h.rows := by rw [hwf, hcol]; omega
  have hconv : conv h x = emptyMat := by
    rw [conv_avec (by omega) (Or.inl ⟨by omega, hcol⟩)]
    exact filter_default h unitM (h.size - 1) (by omega) (by omega)
  refine ⟨hconv, ?_⟩
  rw [hconv]
  intro heq
  have hrows : (matmul (convmtx h 1) x).rows = (convmtx h 1).rows := rfl
  have hzero : (matmul (convmtx h 1) x).rows = 0 := by rw [heq]; rfl
  rw [hrows, (convmtx_col_shape (n := 1) hwf hcol (by omega) (by omega)).1] at hzero
  have hs : h.size = h.data.length := rfl
  rw [hs] at hzero
  omega

/-- The product identity fails when `h` is 1×1 (`m = 1`) but `x` is a true
column vector (`n ≥ 2`): the vector branch of `conv` runs `filter` with the
1×1 `h` as input and returns the empty matrix. -/
lemma C2_fail_m1 {h x : matrix} {n : Nat} (hwf : h.Wf) (hcol : h.cols = 1)
    (hm1 : h.rows = 1) (hxc : x.cols = 1) (hxr : x.rows = n) (hn2 : 2 ≤ n) :
    conv h x = emptyMat ∧ matmul (convmtx h n) x ≠ conv h x := by
  have hhlen : h.data.length = 1 := by rw [hwf, hm1, hcol]
  have hconv : conv h x = emptyMat := by
    rw [conv_bvec (Or.inl ⟨by omega, hxc⟩)]
    exact filter_default x unitM (x.size - 1) (by omega) (by omega)
  refine ⟨hconv, ?_⟩
  rw [hconv]
  intro heq
  have hrows : (matmul (convmtx h n) x).rows = (convmtx h n).rows := rfl
  have hzero : (matmul (convmtx h n) x).rows = 0 := by rw [heq]; rfl
  rw [hrows, (convmtx_col_shape (n := n) hwf hcol (by omega) (by omega)).1] at hzero
  have hs : h.size = h.data.length := rfl
  rw [hs] at hzero
  omega

/-- The body of claim C2: shape and shifted-copies structure of `convmtx`
for a column- and for a row-vector argument; and, for a column vector `h`
of length `m` against a length-`n` column vector `x`, the product
`convmtx(h, n) · x` equals `conv(h, x)` when `m ≥ 2 ∧ n ≥ 2` and when
`m = n = 1`, while `conv` returns the empty matrix (so the identity fails)
when exactly one of `m`, `n` is 1. -/
def C2Concl (h : matrix) (n : Nat) : Prop :=
  (h.cols = 1 ∧ 1 ≤ h.rows →
    (convmtx h n).rows = h.size + n - 1 ∧ (convmtx h n).cols = n ∧
    ∀ r < h.size + n - 1, ∀ c < n,
      (convmtx h n).entry r c = if c ≤ r ∧ r < h.size + c then h.data.getD (r - c) 0 else 0) ∧
  (h.rows = 1 ∧ 2 ≤ h.cols →
    (convmtx h n).rows = n ∧ (convmtx h n).cols = h.size + n - 1 ∧
    ∀ r < n, ∀ c < h.size + n - 1,
      (convmtx h n).entry r c = if r ≤ c ∧ c < h.size + r then h.data.getD (c - r) 0 else 0) ∧
  (∀ x : matrix, x.Wf → h.cols = 1 → x.cols = 1 → x.rows = n →
    (2 ≤ h.rows → 2 ≤ n → matmul (convmtx h n) x = conv h x) ∧
    (h.rows = 1 → n = 1 → matmul (convmtx h n) x = conv h x) ∧
    (2 ≤ h.rows → n = 1 → conv h x = emptyMat ∧ matmul (convmtx h n) x ≠ conv h x) ∧
    (h.rows = 1 → 2 ≤ n → conv h x = emptyMat ∧ matmul (convmtx h n) x ≠ conv h x))

/-- C2 as amended: for a vector `h` and `n ≥ 1`, `convmtx(h, n)` has shape
`(m+n−1) × n` (column `h`) or `n × (m+n−1)` (row `h`) and its columns
(respectively rows) are successive zero-padded shifts of `h`.  For a COLUMN
vector `h` against a length-`n` column `x`, the product `convmtx(h, n) · x`
equals `conv(h, x)` when `m ≥ 2` and `n ≥ 2`, and also when `m = n = 1`
(both scalars; `conv` takes its scalar branch); it fails exactly when one of
`m`, `n` is 1 and the other is ≥ 2, because `conv` then runs `filter` with a
1×1 input and returns the empty matrix. -/
theorem C2_convmtx_shifts_and_product (h : matrix) (n : Nat) (hwf : h.Wf) (hn : 1 ≤ n) :
    C2Concl h n := by
  refine ⟨?_, ?_, ?_⟩
  · rintro ⟨h1, h2⟩
    obtain ⟨hr, hc⟩ := convmtx_col_shape hwf h1 h2 hn
    exact ⟨hr, hc, fun r hrr c hcc => convmtx_col_entry hwf h1 h2 hn hrr hcc⟩
  · rintro ⟨h1, h2⟩
    obtain ⟨hr, hc⟩ := convmtx_row_shape hwf h1 h2 hn
    exact ⟨hr, hc, fun r hrr c hcc => convmtx_row_entry hwf h1 h2 hn hrr hcc⟩
  · intro x hxwf hcol hxc hxr
    refine ⟨fun hm2 hn2 => C2_product hwf hxwf hcol hm2 hxc hxr hn2, ?_, ?_, ?_⟩
    · intro hm1 hn1
      subst hn1
      exact C2_product_scalar hwf hxwf hcol hm1 hxc hxr
    · intro hm2 hn1
      subst hn1
      exact C2_fail_n1 hwf hcol hm2 hxc hxr
    · intro hm1 hn2
      exact C2_fail_m1 hwf hcol hm1 hxc hxr hn2

/-- C2 counterexample: at `n = 1` (so `x` is 1×1) the product
`convmtx(h, 1) · x` is the scaled column `[5, 10]ᵀ`, but `conv(h, x)` runs
`filter` with the scalar `x` as input and returns the empty matrix. -/
theorem C2_convmtx_conv_counterexample :
    matmul (convmtx ⟨2, 1, [1, 2]⟩ 1) ⟨1, 1, [5]⟩ = ⟨2, 1, [5, 10]⟩ ∧
      conv ⟨2, 1, [1, 2]⟩ ⟨1, 1, [5]⟩ = emptyMat ∧
      matmul (convmtx ⟨2, 1, [1, 2]⟩ 1) ⟨1, 1, [5]⟩ ≠ conv ⟨2, 1, [1, 2]⟩ ⟨1, 1, [5]⟩ := by
  decide

theorem C2_convmtx_shifts_and_product_witness :
    (matrix.mk 2 1 [1, 2]).Wf ∧ 1 ≤ 3 ∧ C2Concl ⟨2, 1, [1, 2]⟩ 3 :=
  ⟨by decide, by decide, C2_convmtx_shifts_and_product ⟨2, 1, [1, 2]⟩ 3 (by decide) (by decide)⟩

end susa
